import Mathlib

/-!
Verification of the wzprof WebAssembly profiler against its specification.

The definitions below are shallow embeddings of the Go sources:
machine integers become `Nat`/`Int` with explicit reductions modulo
`2 ^ 32` / `2 ^ 64` where the Go code relies on wrap-around, byte buffers
become `List Nat`, and operations that may panic in Go return `Option`.
-/

namespace Wzprof

/-! ## Virtual memory reconstruction (`vmem`, pclntab.go) -/

/-- Embedding of `vmem` (pclntab.go): a byte buffer `b` rebuilt from data
segments, starting at virtual address `Start`, plus the pclntab layout
parameters. Bytes are `Nat` values below 256. -/
structure vmem where
  Start : Int
  Quantum : Nat
  Ptrsize : Nat
  b : List Nat
deriving Repr, DecidableEq

/-- Embedding of `vmem.Has` (pclntab.go): whether offset `addr` is within the
current buffer length. -/
def vmem.Has (m : vmem) (addr : Nat) : Bool :=
  addr < m.b.length

/-- Embedding of `vmem.CopyAtAddress` (pclntab.go). The Go method panics when
`addr` is below the current end of mapped memory, and again if the final
consistency check `m.Start+len(m.b) != addr+len(b)` fails; both panics are
modelled by `none`. Otherwise the gap between the old end and `addr` is
zero-filled and the new bytes are appended. -/
def vmem.CopyAtAddress (m : vmem) (addr : Int) (bytes : List Nat) : Option vmem :=
  let e : Int := (m.b.length : Int) + m.Start
  if addr < e then
    none
  else
    let zeroes : Nat := (addr - e).toNat
    let nb : List Nat := m.b ++ List.replicate zeroes 0 ++ bytes
    if m.Start + (nb.length : Int) = addr + (bytes.length : Int) then
      some { m with b := nb }
    else
      none

/-! ## Code map (`codemap`, pclntab.go) -/

/-- Embedding of `funcmap` (pclntab.go): per-function unwinding data built by
`parseFnCode` and the `buildCodemap` loop. -/
structure funcmap where
  Id : Nat
  Name : String
  Params : Nat
  Start : Nat
  End_ : Nat
  Frame : Nat
  Jumps : List Nat
  Blocks : List (Nat × Nat)
deriving Repr, DecidableEq

/-- Embedding of `codemap` (pclntab.go): number of imports plus the
per-function maps, indexed by `fidx = fid - imports`. -/
structure codemap where
  imports : Nat
  fnmaps : List funcmap
deriving Repr, DecidableEq

/-- `funcValueOffset` (pclntab.go), the bias the wazero runtime applies to the
function id in the upper half of a program counter. -/
def funcValueOffset : Nat := 0x1000

/-- Embedding of `codemap.FindPCF` (pclntab.go):
`uint64(funcValueOffset+int(i)-c.imports) << 16`. The Go expression computes
in `int`, converts to `uint64` (two's complement, i.e. reduction modulo
`2 ^ 64`) and shifts left by 16 with wrap-around. -/
def codemap.FindPCF (c : codemap) (i : Int) : Nat :=
  (((funcValueOffset + i - c.imports) * 2 ^ 16) % (2 ^ 64)).toNat

/-- Embedding of `codemap.FidForPC` (pclntab.go):
`c.fnmaps[pc>>16-funcValueOffset].Id`, where the index is computed with
wrapping `uint64` subtraction; an out-of-range index panics in Go, modelled
by `none`. -/
def codemap.FidForPC (c : codemap) (pc : Nat) : Option Nat :=
  (c.fnmaps.get? ((pc / 2 ^ 16 + (2 ^ 64 - funcValueOffset)) % 2 ^ 64)).map funcmap.Id

/-- Embedding of `codemap.FidxForPC` (pclntab.go): `pc>>16 - funcValueOffset`
with wrapping `uint64` subtraction. -/
def codemap.FidxForPC (c : codemap) (pc : Nat) : Nat :=
  (pc / 2 ^ 16 + (2 ^ 64 - funcValueOffset)) % 2 ^ 64

/-- Embedding of `codemap.FramesizeForFidx` (pclntab.go): `c.fnmaps[idx].Frame`;
an out-of-range index panics in Go, modelled by `none`. -/
def codemap.FramesizeForFidx (c : codemap) (idx : Nat) : Option Nat :=
  (c.fnmaps.get? idx).map funcmap.Frame

/-- Embedding of the id-assignment performed by the `buildCodemap` loop
(pclntab.go): the parsing of each function body by `parseFnCode` is abstracted
as the input list `parsed`; the loop stores, for the `i`-th code entry, a
funcmap whose `Id` field is `fid(i + importsCount)`. -/
def buildCodemapIds (importsCount : Nat) (parsed : List funcmap) : codemap :=
  { imports := importsCount
    fnmaps := parsed.mapIdx fun i fm => { fm with Id := i + importsCount } }

/-! ## Little-endian reads from byte buffers -/

/-- Combine a list of bytes, least significant first, into one natural number
(the value `binary.LittleEndian.Uint64` computes on an 8-byte slice). -/
def leU64 (bytes : List Nat) : Nat :=
  bytes.foldr (fun b acc => b + 256 * acc) 0

/-- Embedding of a bounds-checked linear-memory read (`api.Memory.Read`):
`some` of the `len` bytes starting at `addr` when they are all mapped,
`none` otherwise. -/
def memRead (mem : List Nat) (addr len : Nat) : Option (List Nat) :=
  if addr + len ≤ mem.length then some ((mem.drop addr).take len) else none

/-- Embedding of `goStackIterator.readu64` (pclntab.go): read 8 bytes of guest
memory at `addr` and decode them as a little-endian `uint64`; the Go method
panics when the read fails, modelled by `none`. -/
def readu64 (mem : List Nat) (addr : Nat) : Option Nat :=
  (memRead mem addr 8).map leU64

/-! ## Guest-native stack walker (`goStackIterator`, pclntab.go) -/

/-- Embedding of the mutable state of `goStackIterator` (pclntab.go): `sp` is a
`uint32`, `pc` a `uint64`, `fn` the `fidx` of the function whose call started
the walk. -/
structure goStackIterator where
  sp : Nat
  fn : Nat
  pc : Nat
  started : Bool
  deriving Repr, DecidableEq

/-- Embedding of `goStackIterator.Next` (pclntab.go). The first call only
marks the iterator as started. Every later step reads the 8-byte return
address at `sp`, finds the frame size of the function containing it through
the code map, and updates `sp -= framesize + 8` with wrapping `uint32`
arithmetic; the `pc` field is not assigned. Go panics (failed memory read,
out-of-range function index) are modelled by `none`; the boolean is the
method's return value (always `true` in the source). -/
def goStackIterator.Next (cm : codemap) (mem : List Nat) (g : goStackIterator) :
    Option (goStackIterator × Bool) :=
  if g.started = false then
    some ({ g with started := true }, true)
  else
    match readu64 mem g.sp with
    | none => none
    | some callerpc =>
      let parentIdx := cm.FidxForPC callerpc
      match cm.FramesizeForFidx parentIdx with
      | none => none
      | some framesize =>
        some ({ g with sp := (g.sp + (2 ^ 32 - (framesize + 8) % 2 ^ 32)) % 2 ^ 32 }, true)

/-- Embedding of `goStackIterator.ProgramCounter` (pclntab.go): returns the
iterator's current `pc` field. -/
def goStackIterator.ProgramCounter (g : goStackIterator) : Nat :=
  g.pc

/-! ## pclntab header decode (`pclntabFromData`, pclntab.go) -/

/-- Embedding of `vmem.PclntabOffset` (pclntab.go): header word `word` is read
as an 8-byte little-endian integer at offset `8 + word*Ptrsize` of the
reconstructed image; a fault (offset not yet mapped) is modelled by `none`.
The source checks `Has(s+8)`, i.e. `s+8 < len(b)`. -/
def vmem.PclntabOffset (m : vmem) (word : Nat) : Option Nat :=
  let s := 8 + word * m.Ptrsize
  let e := s + 8
  if m.Has e then some (leU64 ((m.b.drop s).take 8)) else none

/-- The nine header quantities decoded by `pclntabFromData` (pclntab.go,
lines 289-297). -/
structure pclntabHeader where
  nfunctab : Nat
  nfiletab : Nat
  pcstart : Nat
  funcnametabAddr : Nat
  cutabAddr : Nat
  filetabAddr : Nat
  pctabAddr : Nat
  funcdataAddr : Nat
  functabAddr : Nat
  deriving Repr, DecidableEq

/-- Embedding of the `readWord` sequence in `pclntabFromData` (pclntab.go,
lines 289-297), applied to the reconstructed image: the fault-retry loop that
drains further segments is modelled by reading from the final buffer, with
`none` for a word that still faults. The source reads words 0 through 7, and
reads word 7 twice: `funcdataAddr := readWord(7); functabAddr := readWord(7)`. -/
def pclntabHeaderWords (m : vmem) : Option pclntabHeader := do
  let nfunctab ← m.PclntabOffset 0
  let nfiletab ← m.PclntabOffset 1
  let pcstart ← m.PclntabOffset 2
  let funcnametabAddr ← m.PclntabOffset 3
  let cutabAddr ← m.PclntabOffset 4
  let filetabAddr ← m.PclntabOffset 5
  let pctabAddr ← m.PclntabOffset 6
  let funcdataAddr ← m.PclntabOffset 7
  let functabAddr ← m.PclntabOffset 7
  pure ⟨nfunctab, nfiletab, pcstart, funcnametabAddr, cutabAddr, filetabAddr,
    pctabAddr, funcdataAddr, functabAddr⟩

/-! ## DWARF symbolizer (dwarf.go)

The Go code works through the standard library's `debug/dwarf` reader. The
embedding keeps the algorithmic content of `dwarfparser`/`dwarfmapper`:
entries are represented by the attributes the code reads from them.
-/

/-- `math.MaxUint32`, the sentinel bound used by `parseSubprogram`
(dwarf.go). -/
def maxUint32 : Nat := 0xFFFFFFFF

/-- Embedding of the range-handling tail of `dwarfparser.parseSubprogram`
(dwarf.go, lines 187-198): a subprogram whose resolved range list is empty is
recorded under the artificial range `[MaxUint32, MaxUint32]`; otherwise its
ranges are kept as resolved. -/
def parseSubprogramRanges (ranges : List (Nat × Nat)) : List (Nat × Nat) :=
  if ranges.isEmpty then ranges ++ [(maxUint32, maxUint32)] else ranges

/-- Embedding of `subprogramRange` (dwarf.go), with the subprogram itself
abstracted to an identifier `sub`. -/
structure subprogramRange where
  Range : Nat × Nat
  Sub : Nat
  deriving Repr, DecidableEq

/-- Embedding of the subprogram search at the start of `dwarfmapper.Lookup`
(dwarf.go, lines 215-222): the first entry whose range `[lo, hi]` satisfies
`lo ≤ pc ∧ pc ≤ hi` wins. -/
def findSubprogram (subs : List subprogramRange) (pc : Nat) : Option subprogramRange :=
  subs.find? fun sr => sr.Range.1 ≤ pc && pc ≤ sr.Range.2

/-- Embedding of the `line` cache entry (dwarf.go): a line-reader position
token plus the entry's address. -/
structure dwLine where
  Pos : Nat
  Address : Nat
  deriving Repr, DecidableEq

/-- Embedding of the line-entry selection in `dwarfmapper.Lookup` (dwarf.go,
lines 252-272), on the address-sorted list of collected line entries.
`sort.Search` finds the smallest index whose entry's address is `≥ pc`,
modelled by `List.findIdx` (the two agree on a sorted list). If every entry is
below `pc` the lookup gives up (`none`); if the entry found does not match
`pc` exactly, the previous entry is used, or `none` when there is none. -/
def lookupLine (lines : List dwLine) (pc : Nat) : Option dwLine :=
  let i := lines.findIdx fun l => pc ≤ l.Address
  if h : i < lines.length then
    let l := lines.get ⟨i, h⟩
    if l.Address = pc then some l
    else if h0 : i = 0 then none
    else some (lines.get ⟨i - 1, by omega⟩)
  else none

/-- Spec-side selector for claim C3, written from the claim's words and *not*
from the source: the line entry with the greatest address `≤ pc` (the last
such entry of the address-sorted list), if any. -/
def specGreatestLE (lines : List dwLine) (pc : Nat) : Option dwLine :=
  (lines.filter fun l => l.Address ≤ pc).getLast?

/-- Embedding of `location` (dwarf.go / the package's `Location` data). -/
structure location where
  File : String
  Line : Int
  Column : Int
  Inlined : Bool
  PC : Nat
  HumanName : String
  StableName : String
  deriving Repr, DecidableEq

/-- A parsed `TagInlinedSubroutine` entry as consumed by `dwarfmapper.Lookup`
(dwarf.go, lines 296-315), represented by the attributes the code reads:
`callFile` is `AttrCallFile` when present as an integer (DWARF file indices
are unsigned), `callLine` is `AttrCallLine`, `callColumn` is `AttrCallColumn`
(present in the DWARF data but never read by the code), and the two names are
the result of `namesForSubprogram` on the entry. -/
structure inlineEntry where
  callFile : Option Nat
  callLine : Option Int
  callColumn : Option Int
  humanName : String
  stableName : String
  deriving Repr, DecidableEq

/-- A file-table entry (`lr.Files()` element) as used by `Lookup`. -/
structure dwFile where
  Name : String
  deriving Repr, DecidableEq

/-- The data of a `subprogram` needed by the location-building part of
`Lookup`: its immediate inlined subroutines, plus its own resolved names. -/
structure subprogramInfo where
  Inlines : List inlineEntry
  humanName : String
  stableName : String
  deriving Repr, DecidableEq

/-- The full line entry re-decoded at the selected position (dwarf.go,
lines 274-280): file name, line and column. -/
structure lineEntry where
  FileName : String
  Line : Int
  Column : Int
  deriving Repr, DecidableEq

/-- The location built for one inlined entry at loop index `i` by
`dwarfmapper.Lookup` (dwarf.go, lines 299-315): `none` when the entry's
`AttrCallFile` is missing or not below the file-table length (the loop then
stops); otherwise the file comes from the file table, both the line and the
column from `AttrCallLine` (a missing attribute decodes as 0), and the
location is marked inlined except at index 0. -/
def inlineLoc (files : List dwFile) (pc : Nat) (f : inlineEntry) (i : Nat) :
    Option location :=
  match f.callFile with
  | none => none
  | some fileIdx =>
    if hf : fileIdx < files.length then
      some { File := (files.get ⟨fileIdx, hf⟩).Name, Line := f.callLine.getD 0,
             Column := f.callLine.getD 0, Inlined := i ≠ 0, PC := pc,
             HumanName := f.humanName, StableName := f.stableName }
    else none

/-- Embedding of the descending inline loop of `dwarfmapper.Lookup` (dwarf.go,
lines 296-316): indices run from `i` down to 0; an entry for which
`inlineLoc` fails stops the loop (`break`), keeping the locations already
emitted. -/
def inlineLocsDown (files : List dwFile) (pc : Nat) (inlines : List inlineEntry) :
    Nat → List location
  | 0 =>
    match inlines[0]? with
    | none => []
    | some f =>
      match inlineLoc files pc f 0 with
      | none => []
      | some loc => [loc]
  | i + 1 =>
    match inlines[i + 1]? with
    | none => []
    | some f =>
      match inlineLoc files pc f (i + 1) with
      | none => []
      | some loc => loc :: inlineLocsDown files pc inlines i

/-- Embedding of the location-list construction of `dwarfmapper.Lookup`
(dwarf.go, lines 282-319): the innermost location is built from the selected
line entry and the subprogram's own names, with `Inlined` set when the
subprogram has inlined subroutines; when it has any, the inline loop walks
them from the last index down to 0. -/
def lookupLocations (spgm : subprogramInfo) (files : List dwFile) (le : lineEntry)
    (pc : Nat) : List location :=
  let first : location :=
    { File := le.FileName, Line := le.Line, Column := le.Column,
      Inlined := decide (0 < spgm.Inlines.length), PC := pc,
      HumanName := spgm.humanName, StableName := spgm.stableName }
  if 0 < spgm.Inlines.length then
    first :: inlineLocsDown files pc spgm.Inlines (spgm.Inlines.length - 1)
  else
    [first]

/-! ## CPU profiler stop-time host elision (cpu.go) -/

/-- Embedding of `stackTrace` (sources outside pclntab.go): the parallel frame
sequences, index 0 innermost. `fns` keeps, for each frame, whether
`fn.Definition().GoFunction() != nil` (the frame is a host function); `pcs`
keeps the program counters. The hash key is irrelevant to the elision logic
and omitted. -/
structure stackTrace where
  fns : List Bool
  pcs : List Nat
  deriving Repr, DecidableEq

/-- Embedding of `stackTrace.host`: the trace is non-empty and its innermost
frame is a host (Go) function. -/
def stackTrace.host (st : stackTrace) : Bool :=
  match st.fns with
  | [] => false
  | f :: _ => f

/-- Modelled from the spec: `stackTrace.contains` is called by
`CPUProfiler.StopProfile` (cpu.go) but its definition is not among the
provided sources. Per the spec's data model a stack trace is an ordered
inner-first sequence of frames compared by their PC sequence, so stack `st`
fully contains stack `other` exactly when `other`'s frames form the outer
portion of `st`, i.e. `other.pcs` is a suffix of `st.pcs`. -/
def stackTrace.contains (st other : stackTrace) : Bool :=
  other.pcs.isSuffixOf st.pcs

/-- Embedding of `stackCounter` (sources outside cpu.go): a cloned stack trace
plus the pair `[count, total]`. -/
structure stackCounter where
  stack : stackTrace
  count : Int
  total : Int
  deriving Repr, DecidableEq

/-- Modelled from the spec: `stackCounter.subtract` is called by
`CPUProfiler.StopProfile` (cpu.go) but its definition is not among the
provided sources. The spec says the host entry's total is *subtracted* from
the other counter's accumulated total, so it decrements the `total` slot. -/
def stackCounter.subtract (sc : stackCounter) (v : Int) : stackCounter :=
  { sc with total := sc.total - v }

/-- The host-elision loop of `CPUProfiler.StopProfile` (cpu.go, lines
112-123). On each ranged sample `sc` whose innermost frame is a host
function, the entry is deleted and its current total is subtracted from every
counter remaining in the map whose stack it contains. `acc` holds the
already-visited surviving entries, the last argument the entries not yet
visited; Go's map iteration order is modelled as the list order. `gas` counts
the entries still to visit: the Go loop visits each initial map entry exactly
once, and the inner loop's in-place updates do not change how many entries
are left, so running with `gas` equal to the initial length is exactly the
source loop (the `gas = 0` case with entries left is never reached). -/
def elideGo : Nat → List stackCounter → List stackCounter → List stackCounter
  | _, acc, [] => acc
  | 0, acc, _ :: _ => acc
  | gas + 1, acc, sc :: rest =>
    if sc.stack.host then
      elideGo gas
        (acc.map fun other =>
          if sc.stack.contains other.stack then other.subtract sc.total else other)
        (rest.map fun other =>
          if sc.stack.contains other.stack then other.subtract sc.total else other)
    else
      elideGo gas (acc ++ [sc]) rest

/-- Embedding of the `!p.host` branch of `CPUProfiler.StopProfile` (cpu.go,
lines 112-123): run the elision loop over all recorded samples. -/
def stopProfileElide (samples : List stackCounter) : List stackCounter :=
  elideGo samples.length [] samples

/-! ## Memory profiler parameter extraction (ProfilerMemory sources) -/

/-- Go's `int32(x)` on a `uint64` value: keep the low 32 bits, two's
complement. -/
def int32cast (x : Nat) : Int :=
  let r : Nat := x % 2 ^ 32
  if r < 2 ^ 31 then (r : Int) else (r : Int) - 2 ^ 32

/-- Go's `int64(v)` on a `uint64` value: two's complement reinterpretation. -/
def int64ofUint64 (v : Nat) : Int :=
  let r : Nat := v % 2 ^ 64
  if r < 2 ^ 63 then (r : Int) else (r : Int) - 2 ^ 64

/-- Wrap an integer into `int32` range (two's complement), for `int32`
additions that may overflow. -/
def wrapInt32 (x : Int) : Int :=
  (x + 2 ^ 31) % (2 ^ 32) - 2 ^ 31

/-- Embedding of `profileStack0int32.PreFunction`: `int64(int32(params[0]))`;
a missing parameter would panic in Go, modelled by `none`. -/
def profileStack0int32Pre (params : List Nat) : Option Int :=
  (params.get? 0).map int32cast

/-- Embedding of `profileStackCalloc.PreFunction`:
`int64(int32(params[0])) * int64(int32(params[1]))` (the product of two
`int32`-range values is exact in `int64`). -/
def profileStackCallocPre (params : List Nat) : Option Int := do
  let a ← params.get? 0
  let b ← params.get? 1
  pure (int32cast a * int32cast b)

/-- Embedding of `profileStack1int32.PreFunction`: `int64(int32(params[1]))`. -/
def profileStack1int32Pre (params : List Nat) : Option Int :=
  (params.get? 1).map int32cast

/-- Embedding of `profileGoStack0int32.PreFunction`: `sp` is global 0
truncated to `int32`; the stack slot is at `sp + 8*(0+1)` (`int32`
arithmetic), converted to `uint32` for the memory read; the 8 bytes read are
decoded little-endian and reinterpreted as `int64`. A failed read panics in
Go, modelled by `none`. -/
def profileGoStack0int32Pre (global0 : Nat) (mem : List Nat) : Option Int :=
  let sp := int32cast global0
  let offset := wrapInt32 (sp + 8 * (0 + 1))
  let addr := (offset % (2 ^ 32)).toNat
  (readu64 mem addr).map int64ofUint64

/-- Embedding of `ProfilerMemory.Listen`: maps an allocator function name to
the name of the processor registered for it, `""` when the function is not
instrumented. -/
def ProfilerMemoryListen (name : String) : String :=
  if name = "malloc" then "profileStack0int32"
  else if name = "calloc" then "profileStackCalloc"
  else if name = "realloc" then "profileStack1int32"
  else if name = "runtime.mallocgc" then "profileGoStack0int32"
  else if name = "runtime.alloc" then "profileStack0int32"
  else ""

/-- Embedding of the processor table built by `ProfilerMemory.Register`,
dispatching a processor name to its `PreFunction`. -/
def processorPre (proc : String) (params : List Nat) (global0 : Nat)
    (mem : List Nat) : Option Int :=
  if proc = "profileStack0int32" then profileStack0int32Pre params
  else if proc = "profileStack1int32" then profileStack1int32Pre params
  else if proc = "profileStackCalloc" then profileStackCallocPre params
  else if proc = "profileGoStack0int32" then profileGoStack0int32Pre global0 mem
  else none

/-- The byte count the memory profiler charges for a call to function `name`:
`Listen` chooses a processor (`""` meaning the call is not instrumented), and
the processor's `PreFunction` extracts the value. -/
def memoryCharge (name : String) (params : List Nat) (global0 : Nat)
    (mem : List Nat) : Option Int :=
  if ProfilerMemoryListen name = "" then none
  else processorPre (ProfilerMemoryListen name) params global0 mem

/-! ## Spec-side claim formalizations and concrete instances -/

/-- Spec-side reading of claim C5, written from the claim's words and not
from the source: every one of the nine header quantities is decoded from its
own consecutive word, word `k` at offset `8 + k*ptrsize`; in particular
`functab_addr` comes from word 8, one past `funcdata_addr`'s word 7. -/
def specHeaderDistinctWords (m : vmem) : Prop :=
  ∀ h, pclntabHeaderWords m = some h →
    m.PclntabOffset 0 = some h.nfunctab ∧ m.PclntabOffset 1 = some h.nfiletab ∧
    m.PclntabOffset 2 = some h.pcstart ∧ m.PclntabOffset 3 = some h.funcnametabAddr ∧
    m.PclntabOffset 4 = some h.cutabAddr ∧ m.PclntabOffset 5 = some h.filetabAddr ∧
    m.PclntabOffset 6 = some h.pctabAddr ∧ m.PclntabOffset 7 = some h.funcdataAddr ∧
    m.PclntabOffset 8 = some h.functabAddr

/-- A concrete reconstructed image for exercising the header decode: after
the 8 leading bytes, the nine 8-byte little-endian words hold the values
0 through 8. -/
def c5image : vmem :=
  ⟨0, 1, 8, List.replicate 8 0
    ++ (List.range 9).flatMap (fun k => [k, 0, 0, 0, 0, 0, 0, 0]) ++ [0]⟩

/-- Recursion-friendly reformulation of the line-entry selection of
`dwarfmapper.Lookup`, carrying the element just before the current suffix;
proven equivalent to `lookupLine` below. -/
def lookupLineFrom (prev : Option dwLine) : List dwLine → Nat → Option dwLine
  | [], _ => none
  | l :: ls, pc =>
    if pc ≤ l.Address then
      if l.Address = pc then some l else prev
    else
      lookupLineFrom (some l) ls pc

/-- The location `inlineLoc` emits for entry `f` at loop index `i` when the
entry's call-file attribute is the valid index `idx`. -/
def inlineLocAt (files : List dwFile) (pc : Nat) (f : inlineEntry) (i idx : Nat)
    (h : idx < files.length) : location :=
  { File := (files.get ⟨idx, h⟩).Name, Line := f.callLine.getD 0,
    Column := f.callLine.getD 0, Inlined := decide (i ≠ 0), PC := pc,
    HumanName := f.humanName, StableName := f.stableName }

/-- Spec-side reading of claim C6, written from the claim's words and not
from the source: a non-empty location list has exactly one entry with
`inlined = false`, and it is the last element. -/
def specInlineChainClaim (L : List location) : Prop :=
  L ≠ [] →
    L.countP (fun l => l.Inlined = false) = 1 ∧
    L.getLast?.map location.Inlined = some false

/-- The per-counter adjustment asserted by claim C2, written from the claim's
words and not from the source: a surviving counter `sc` is charged for every
removed host counter `h` whose stack `sc`'s own stack fully contains, i.e.
the host entries `h` with `sc.stack.contains h.stack`. -/
def claimAdjusted (samples : List stackCounter) (sc : stackCounter) : stackCounter :=
  { sc with
    total := sc.total -
      ((samples.filter fun h => h.stack.host && sc.stack.contains h.stack).map
        stackCounter.total).sum }

/-- Spec-side reading of claim C2, written from the claim's words and not
from the source: host-rooted counters are removed, and every remaining
counter is adjusted per `claimAdjusted`. -/
def specElideClaim (samples : List stackCounter) : Prop :=
  stopProfileElide samples =
    (samples.filter fun sc => sc.stack.host = false).map (claimAdjusted samples)

/-- The adjustment the code actually performs (direction of containment
reversed with respect to `claimAdjusted`): a surviving counter's total is
reduced by the total of every host counter whose stack contains the
surviving counter's stack. -/
def hostAdjusted (samples : List stackCounter) (sc : stackCounter) : stackCounter :=
  { sc with
    total := sc.total -
      ((samples.filter fun h => h.stack.host && h.stack.contains sc.stack).map
        stackCounter.total).sum }

/-- Spec-side reading of claim C9, written from the claim's words and not
from the source. For each recognized allocator the charged byte count is:
`malloc`/`runtime.alloc` the first parameter as a signed 32-bit integer;
`calloc` the product of the first two parameters as signed 32-bit integers;
`realloc` the second parameter (as stated, with no signedness conversion);
`runtime.mallocgc` the 8-byte little-endian value at `sp + 8` (as stated,
the unsigned value). Unrecognized names are not instrumented. -/
def specMemoryChargeClaim : Prop :=
  ∀ (params : List Nat) (global0 : Nat) (mem : List Nat),
    memoryCharge "malloc" params global0 mem = (params.get? 0).map int32cast ∧
    memoryCharge "calloc" params global0 mem
      = (do
          let a ← params.get? 0
          let b ← params.get? 1
          pure (int32cast a * int32cast b)) ∧
    memoryCharge "realloc" params global0 mem
      = (params.get? 1).map (fun x => (x : Int)) ∧
    memoryCharge "runtime.mallocgc" params global0 mem
      = (readu64 mem (global0 + 8)).map (fun v => (v : Int)) ∧
    memoryCharge "runtime.alloc" params global0 mem = (params.get? 0).map int32cast ∧
    ∀ name, name ∉ (["malloc", "calloc", "realloc", "runtime.mallocgc",
        "runtime.alloc"] : List String) →
      memoryCharge name params global0 mem = none

/-! ## Theorems -/

/-- C8: `CopyAtAddress(vaddr, bytes)` requires `vaddr ≥ base_vaddr +
len(buffer)` (rejecting already-mapped addresses), zero-fills the gap between
the old end and `vaddr`, and appends `bytes`; afterwards, for non-empty
`bytes`, `buffer[vaddr − base_vaddr]` equals the first supplied byte and the
buffer length equals `vaddr + len(bytes) − base_vaddr`. -/
theorem copyAtAddress_spec (m : vmem) (addr : Int) (bytes : List Nat) :
    (addr < (m.b.length : Int) + m.Start → m.CopyAtAddress addr bytes = none) ∧
    ((m.b.length : Int) + m.Start ≤ addr →
      ∃ m', m.CopyAtAddress addr bytes = some m' ∧
        m'.b = m.b ++ List.replicate (addr - ((m.b.length : Int) + m.Start)).toNat 0
          ++ bytes ∧
        (∀ c rest, bytes = c :: rest → m'.b[(addr - m.Start).toNat]? = some c) ∧
        (m'.b.length : Int) = addr + (bytes.length : Int) - m.Start) := by
  constructor
  · intro hlt
    simp only [vmem.CopyAtAddress]
    rw [if_pos hlt]
  · intro hge
    have hnlt : ¬ addr < (m.b.length : Int) + m.Start := not_lt.mpr hge
    have hz : ((addr - ((m.b.length : Int) + m.Start)).toNat : Int)
        = addr - ((m.b.length : Int) + m.Start) := Int.toNat_of_nonneg (by omega)
    simp only [vmem.CopyAtAddress]
    rw [if_neg hnlt]
    have hlen : (((m.b ++ List.replicate (addr - ((m.b.length : Int) + m.Start)).toNat 0
        ++ bytes).length : Int)) = addr + (bytes.length : Int) - m.Start := by
      simp only [List.length_append, List.length_replicate]
      push_cast
      omega
    rw [if_pos (by omega)]
    refine ⟨_, rfl, rfl, ?_, hlen⟩
    intro c rest hb
    subst hb
    have hidx : (addr - m.Start).toNat
        = (m.b ++ List.replicate (addr - ((m.b.length : Int) + m.Start)).toNat 0).length := by
      simp only [List.length_append, List.length_replicate]
      omega
    rw [List.append_assoc, ← List.append_assoc, hidx,
      List.getElem?_append_right (Nat.le_refl _)]
    simp

/-- Witness for C8 at a concrete input: base 100, buffer of two bytes,
append at address 110. -/
theorem copyAtAddress_spec_witness :
    ∃ m', vmem.CopyAtAddress ⟨100, 1, 8, [7, 7]⟩ 110 [42, 43] = some m' ∧
      m'.b = [7, 7] ++ List.replicate 8 0 ++ [42, 43] ∧
      m'.b[(10 : Nat)]? = some 42 ∧ (m'.b.length : Int) = 12 := by
  obtain ⟨m', h1, h2, h3, h4⟩ :=
    (copyAtAddress_spec ⟨100, 1, 8, [7, 7]⟩ 110 [42, 43]).2 (by norm_num)
  exact ⟨m', h1, by simpa using h2, by simpa using h3 42 [43] rfl, by simpa using h4⟩

/-- C4: for every PC produced by the code map, i.e.
`pc = FindPCF(id) | pc_b` for a function id present in the code map (whose
`fnmaps` carry the ids assigned by `buildCodemap`) and a 16-bit `pc_b`,
looking the PC back up yields the same id and `FindPCF` of that id is `pc`
with its low 16 bits cleared. -/
theorem findPCF_fidForPC_roundtrip (c : codemap) (id pcb : Nat)
    (h1 : c.imports ≤ id) (h2 : id - c.imports < c.fnmaps.length)
    (hid : ∀ (j : Nat) (hj : j < c.fnmaps.length),
      (c.fnmaps.get ⟨j, hj⟩).Id = c.imports + j)
    (hpcb : pcb < 2 ^ 16) (hbound : funcValueOffset + id - c.imports < 2 ^ 48) :
    c.FindPCF id ||| pcb = c.FindPCF id + pcb ∧
    c.FidForPC (c.FindPCF id + pcb) = some id ∧
    ∀ f, c.FidForPC (c.FindPCF id + pcb) = some f →
      c.FindPCF f = (c.FindPCF id + pcb) / 2 ^ 16 * 2 ^ 16 := by
  have hfind : c.FindPCF id = (funcValueOffset + id - c.imports) * 2 ^ 16 := by
    unfold codemap.FindPCF
    rw [show (funcValueOffset : Int) + (id : Int) - (c.imports : Int)
        = ((funcValueOffset + id - c.imports : Nat) : Int) by omega]
    rw [show (((funcValueOffset + id - c.imports : Nat) : Int) * 2 ^ 16)
        = (((funcValueOffset + id - c.imports) * 2 ^ 16 : Nat) : Int) by push_cast; ring]
    rw [Int.emod_eq_of_lt (by positivity)
      (by exact_mod_cast (by omega : (funcValueOffset + id - c.imports) * 2 ^ 16 < 2 ^ 64))]
    omega
  have hklow : funcValueOffset ≤ funcValueOffset + id - c.imports := by omega
  have hdiv : (c.FindPCF id + pcb) / 2 ^ 16 = funcValueOffset + id - c.imports := by
    rw [hfind]
    omega
  have hidx : ((c.FindPCF id + pcb) / 2 ^ 16 + (2 ^ 64 - funcValueOffset)) % 2 ^ 64
      = id - c.imports := by
    rw [hdiv]
    omega
  have hfid : c.FidForPC (c.FindPCF id + pcb) = some id := by
    unfold codemap.FidForPC
    rw [hidx, List.get?_eq_get h2]
    simp only [Option.map_some']
    rw [hid (id - c.imports) h2]
    rw [show c.imports + (id - c.imports) = id by omega]
  refine ⟨?_, hfid, ?_⟩
  · rw [hfind, Nat.mul_comm (funcValueOffset + id - c.imports) (2 ^ 16),
      ← Nat.mul_add_lt_is_or hpcb]
  · intro f hf
    rw [hfid] at hf
    cases hf
    rw [hfind]
    omega

/-- Witness for C4: a code map with two imports and two functions, id 3,
`pc_b` 5. -/
theorem findPCF_fidForPC_roundtrip_witness :
    codemap.FidForPC ⟨2, [⟨2, "a", 0, 0, 0, 0, [], []⟩, ⟨3, "b", 0, 0, 0, 0, [], []⟩]⟩
        (codemap.FindPCF ⟨2, [⟨2, "a", 0, 0, 0, 0, [], []⟩, ⟨3, "b", 0, 0, 0, 0, [], []⟩]⟩ 3
          + 5) = some 3 := by
  exact (findPCF_fidForPC_roundtrip
    ⟨2, [⟨2, "a", 0, 0, 0, 0, [], []⟩, ⟨3, "b", 0, 0, 0, 0, [], []⟩]⟩ 3 5
    (by norm_num) (by norm_num)
    (by decide)
    (by norm_num) (by norm_num [funcValueOffset])).2.1

/-- C1 (evaluation at the failing input): one step of the guest-native stack
walker, after the first frame, with `sp = 16`, a return address of
`0x10000000` stored little-endian at guest address 16, and a code map giving
the containing function frame size 16. The claim (and the walker's own
comment) call for `sp ← 16 + 16 + 8 = 40` and `pc ← 0x10000000`; the code
instead computes `sp − (16 + 8)` with wrapping `uint32` arithmetic, yielding
`2^32 − 8 = 4294967288`, and leaves `pc` at its old value `0x10000005`. -/
theorem goStackIterator_next_failing :
    goStackIterator.Next ⟨0, [⟨0, "f", 0, 0, 0, 16, [], []⟩]⟩
        (List.replicate 16 0 ++ [0, 0, 0, 0x10, 0, 0, 0, 0])
        ⟨16, 0, 0x10000005, true⟩
      = some (⟨4294967288, 0, 0x10000005, true⟩, true) ∧
    (4294967288 : Nat) = (16 + (2 ^ 32 - (16 + 8))) % 2 ^ 32 ∧
    (4294967288 : Nat) ≠ 16 + 16 + 8 := by
  refine ⟨?_, by norm_num, by norm_num⟩
  rfl

/-- C7: a subprogram parsed with zero PC ranges is recorded under the
sentinel range `[MaxUint32, MaxUint32]`, and for every PC strictly below
`MaxUint32` the first-match PC search of `Lookup` never selects an entry
carrying the sentinel range. -/
theorem sentinelRange_never_matches :
    parseSubprogramRanges [] = [(maxUint32, maxUint32)] ∧
    ∀ (subs : List subprogramRange) (pc : Nat), pc < maxUint32 →
      ∀ sr, findSubprogram subs pc = some sr → sr.Range ≠ (maxUint32, maxUint32) := by
  constructor
  · rfl
  · intro subs pc hpc sr hfind hrange
    have hp := List.find?_some hfind
    rw [hrange] at hp
    simp only [maxUint32, Bool.and_eq_true, decide_eq_true_eq] at hp
    simp only [maxUint32] at hpc
    omega

/-- Witness for C7: the search at `pc = 5` over one subprogram covering
`[0, 10]` together with a sentinel entry selects the real entry, which does
not carry the sentinel range. -/
theorem sentinelRange_never_matches_witness :
    parseSubprogramRanges [] = [(maxUint32, maxUint32)] ∧
    (⟨(0, 10), 0⟩ : subprogramRange).Range ≠ (maxUint32, maxUint32) := by
  refine ⟨sentinelRange_never_matches.1, ?_⟩
  exact sentinelRange_never_matches.2
    [⟨(maxUint32, maxUint32), 1⟩, ⟨(0, 10), 0⟩] 5 (by norm_num [maxUint32])
    ⟨(0, 10), 0⟩ (by decide)

/-- C5 (counterexample): on the concrete image whose word `k` holds the value
`k`, the decoded header has `functabAddr = 7`, the value of word 7, while
word 8 holds 8 — so the nine header quantities are not each decoded from
their own consecutive word, and `funcdata_addr` and `functab_addr` do not
come from different offsets. -/
theorem pclntabHeader_distinct_words_counterexample :
    pclntabHeaderWords c5image = some ⟨0, 1, 2, 3, 4, 5, 6, 7, 7⟩ ∧
    c5image.PclntabOffset 8 = some 8 ∧
    ¬ specHeaderDistinctWords c5image := by
  refine ⟨by decide, by decide, ?_⟩
  intro hcl
  have h := hcl ⟨0, 1, 2, 3, 4, 5, 6, 7, 7⟩ (by decide)
  have h8 := h.2.2.2.2.2.2.2.2
  rw [show c5image.PclntabOffset 8 = some 8 from by decide] at h8
  exact absurd h8 (by decide)

/-- C5 (amended): the header words `nfunctab` … `pctabAddr` are decoded from
the consecutive 8-byte little-endian words `k = 0 … 6` at offsets
`8 + k*ptrsize` of the reconstructed image, and `funcdataAddr` and
`functabAddr` are **both** decoded from word 7 at offset `8 + 7*ptrsize` —
the same offset, matching Go's own `debug/gosym` layout for the 1.20
pclntab. -/
theorem pclntabHeader_word_offsets (m : vmem) (h : pclntabHeader)
    (hw : pclntabHeaderWords m = some h) :
    h.nfunctab = leU64 ((m.b.drop (8 + 0 * m.Ptrsize)).take 8) ∧
    h.nfiletab = leU64 ((m.b.drop (8 + 1 * m.Ptrsize)).take 8) ∧
    h.pcstart = leU64 ((m.b.drop (8 + 2 * m.Ptrsize)).take 8) ∧
    h.funcnametabAddr = leU64 ((m.b.drop (8 + 3 * m.Ptrsize)).take 8) ∧
    h.cutabAddr = leU64 ((m.b.drop (8 + 4 * m.Ptrsize)).take 8) ∧
    h.filetabAddr = leU64 ((m.b.drop (8 + 5 * m.Ptrsize)).take 8) ∧
    h.pctabAddr = leU64 ((m.b.drop (8 + 6 * m.Ptrsize)).take 8) ∧
    h.funcdataAddr = leU64 ((m.b.drop (8 + 7 * m.Ptrsize)).take 8) ∧
    h.functabAddr = h.funcdataAddr := by
  have hval : ∀ w v : Nat, m.PclntabOffset w = some v →
      v = leU64 ((m.b.drop (8 + w * m.Ptrsize)).take 8) := by
    intro w v hv
    simp only [vmem.PclntabOffset] at hv
    split at hv
    · exact (Option.some.inj hv).symm
    · exact Option.noConfusion hv
  simp only [pclntabHeaderWords, bind, Option.bind_eq_some, pure,
    Option.some.injEq] at hw
  obtain ⟨w0, h0, w1, h1, w2, h2, w3, h3, w4, h4, w5, h5, w6, h6, w7, h7, w7b, h7b,
    hh⟩ := hw
  have hbb : w7b = w7 := by rw [hval 7 w7b h7b, hval 7 w7 h7]
  subst hh
  exact ⟨hval 0 w0 h0, hval 1 w1 h1, hval 2 w2 h2, hval 3 w3 h3, hval 4 w4 h4,
    hval 5 w5 h5, hval 6 w6 h6, hval 7 w7 h7, hbb⟩

/-- Witness for C5 (amended) at the concrete image: all nine decoded values,
with `functabAddr` equal to `funcdataAddr`. -/
theorem pclntabHeader_word_offsets_witness :
    (7 : Nat) = leU64 ((c5image.b.drop (8 + 7 * c5image.Ptrsize)).take 8) ∧
    (pclntabHeader.mk 0 1 2 3 4 5 6 7 7).functabAddr
      = (pclntabHeader.mk 0 1 2 3 4 5 6 7 7).funcdataAddr := by
  have h := pclntabHeader_word_offsets c5image ⟨0, 1, 2, 3, 4, 5, 6, 7, 7⟩ (by decide)
  exact ⟨h.2.2.2.2.2.2.2.1, h.2.2.2.2.2.2.2.2⟩

/-- `lookupLineFrom` computes the same selection as the `sort.Search`-based
code: the entry at the first index whose address is `≥ pc` when it matches
`pc` exactly, otherwise the carried predecessor at index 0 or the element
just before that index. -/
theorem lookupLineFrom_getElem (lines : List dwLine) :
    ∀ (prev : Option dwLine) (pc : Nat),
      lookupLineFrom prev lines pc =
        match lines[lines.findIdx fun l => pc ≤ l.Address]? with
        | none => none
        | some l =>
          if l.Address = pc then some l
          else if lines.findIdx (fun l => pc ≤ l.Address) = 0 then prev
          else lines[(lines.findIdx fun l => pc ≤ l.Address) - 1]? := by
  induction lines with
  | nil => intro prev pc; rfl
  | cons l ls ih =>
    intro prev pc
    by_cases hp : pc ≤ l.Address
    · have hidx : (l :: ls).findIdx (fun x => pc ≤ x.Address) = 0 := by
        simp [List.findIdx_cons, hp]
      rw [hidx]
      simp [lookupLineFrom, hp]
    · have hcond : (l :: ls).findIdx (fun x => pc ≤ x.Address)
          = ls.findIdx (fun x => pc ≤ x.Address) + 1 := by
        simp [List.findIdx_cons, hp]
      simp only [lookupLineFrom, if_neg hp, hcond, List.getElem?_cons_succ,
        Nat.add_sub_cancel, Nat.add_eq_zero, Nat.succ_ne_zero, and_false,
        if_false]
      rw [ih (some l) pc]
      cases hx : ls[ls.findIdx fun x => pc ≤ x.Address]? with
      | none => rfl
      | some x =>
        by_cases hax : x.Address = pc
        · simp [hax]
        · simp only [if_neg hax]
          cases hz : ls.findIdx fun x => pc ≤ x.Address with
          | zero => simp
          | succ n => simp

/-- `lookupLine` as written (via `sort.Search`) agrees with the
predecessor-carrying recursion started with no predecessor. -/
theorem lookupLine_eq_lookupLineFrom (lines : List dwLine) (pc : Nat) :
    lookupLine lines pc = lookupLineFrom none lines pc := by
  rw [lookupLineFrom_getElem]
  unfold lookupLine
  by_cases h : (lines.findIdx fun l => pc ≤ l.Address) < lines.length
  · rw [dif_pos h, List.getElem?_eq_getElem h]
    simp only [List.get_eq_getElem]
    by_cases hax : lines[lines.findIdx fun l => pc ≤ l.Address].Address = pc
    · simp [hax]
    · simp only [if_neg hax]
      by_cases h0 : (lines.findIdx fun l => pc ≤ l.Address) = 0
      · simp [h0]
      · rw [dif_neg h0, if_neg h0, List.getElem?_eq_getElem (by omega)]
  · rw [dif_neg h, List.getElem?_eq_none (by omega)]

/-- On a strictly address-sorted list, the predecessor-carrying recursion
returns the greatest entry with address `≤ pc` when some entry has address
`≥ pc` (falling back to the carried predecessor when no entry is `≤ pc`),
and gives up otherwise. -/
theorem lookupLineFrom_sorted (lines : List dwLine) (pc : Nat)
    (hs : lines.Pairwise fun a b => a.Address < b.Address) :
    ∀ prev,
      lookupLineFrom prev lines pc =
        if lines.any fun l => pc ≤ l.Address then
          match specGreatestLE lines pc with
          | some x => some x
          | none => prev
        else none := by
  induction lines with
  | nil => intro prev; rfl
  | cons l ls ih =>
    rw [List.pairwise_cons] at hs
    obtain ⟨hl, hs'⟩ := hs
    intro prev
    by_cases hp : pc ≤ l.Address
    · have hfilter : ls.filter (fun x => x.Address ≤ pc) = [] := by
        rw [List.filter_eq_nil_iff]
        intro a ha
        have := hl a ha
        simp only [decide_eq_true_eq]
        omega
      by_cases hax : l.Address = pc
      · simp [lookupLineFrom, hp, hax, specGreatestLE, List.filter_cons,
          hfilter, List.any_cons]
      · have hlt : ¬ l.Address ≤ pc := by omega
        simp [lookupLineFrom, hp, hax, specGreatestLE, List.filter_cons, hlt,
          hfilter, List.any_cons]
    · have hle : l.Address ≤ pc := by omega
      rw [lookupLineFrom, if_neg hp, ih hs' (some l)]
      have hany : (l :: ls).any (fun x => pc ≤ x.Address)
          = ls.any (fun x => pc ≤ x.Address) := by
        simp [List.any_cons, hp]
      rw [hany]
      by_cases ha : ls.any (fun x => pc ≤ x.Address)
      · rw [if_pos ha, if_pos ha]
        have hglecons : specGreatestLE (l :: ls) pc =
            match specGreatestLE ls pc with
            | some x => some x
            | none => some l := by
          unfold specGreatestLE
          rw [List.filter_cons_of_pos (by simp [hle])]
          cases hfl : ls.filter (fun x => decide (x.Address ≤ pc)) with
          | nil => simp
          | cons y ys =>
            rw [List.getLast?_cons_cons]
            cases hly : (y :: ys).getLast? with
            | none => simp [List.getLast?_eq_none_iff] at hly
            | some x => rfl
        rw [hglecons]
        cases specGreatestLE ls pc with
        | none => rfl
        | some x => rfl
      · rw [if_neg ha, if_neg ha]

/-- C3 (counterexample): a single line entry at address 10 looked up at
PC 20. The entry with the greatest address `≤ 20` exists (the entry at 10),
but the code returns the empty result because no entry has address `≥ 20`. -/
theorem lookupLine_greatest_counterexample :
    lookupLine [⟨0, 10⟩] 20 = none ∧
    specGreatestLE [⟨0, 10⟩] 20 = some ⟨0, 10⟩ ∧
    lookupLine [⟨0, 10⟩] 20 ≠ specGreatestLE [⟨0, 10⟩] 20 := by
  refine ⟨by decide, by decide, by decide⟩

/-- C3 (amended): on the address-sorted (duplicate-free) line list, the
lookup selects the entry with the greatest address `≤ PC` — the exact entry
when present, otherwise the immediate predecessor — provided some entry has
address `≥ PC`; when PC is below all addresses the selector is empty, and
when PC is above all addresses (no entry with address `≥ PC`) the lookup
also returns the empty result. -/
theorem lookupLine_greatest_le (lines : List dwLine) (pc : Nat)
    (hs : lines.Pairwise fun a b => a.Address < b.Address) :
    lookupLine lines pc =
      if lines.any fun l => pc ≤ l.Address then specGreatestLE lines pc
      else none := by
  rw [lookupLine_eq_lookupLineFrom, lookupLineFrom_sorted lines pc hs none]
  by_cases ha : lines.any fun l => pc ≤ l.Address
  · rw [if_pos ha, if_pos ha]
    cases specGreatestLE lines pc with
    | none => rfl
    | some x => rfl
  · rw [if_neg ha, if_neg ha]

/-- Witness for C3 (amended): two entries at addresses 10 and 20 looked up at
PC 15 select the predecessor entry at address 10. -/
theorem lookupLine_greatest_le_witness :
    lookupLine [⟨0, 10⟩, ⟨1, 20⟩] 15 = specGreatestLE [⟨0, 10⟩, ⟨1, 20⟩] 15
      ∧ specGreatestLE [⟨0, 10⟩, ⟨1, 20⟩] 15 = some ⟨0, 10⟩ := by
  constructor
  · rw [lookupLine_greatest_le [⟨0, 10⟩, ⟨1, 20⟩] 15 (by decide)]
    decide
  · decide

/-- An inlined entry whose call-file attribute is a valid file-table index
yields a location; its `Inlined` flag is set exactly when the loop index is
non-zero. -/
theorem inlineLoc_valid (files : List dwFile) (pc : Nat) (f : inlineEntry)
    (i idx : Nat) (hcf : f.callFile = some idx) (hlt : idx < files.length) :
    inlineLoc files pc f i = some (inlineLocAt files pc f i idx hlt) := by
  obtain ⟨cf, cl, cc, hn, sn⟩ := f
  simp only at hcf
  subst hcf
  unfold inlineLoc inlineLocAt
  exact dif_pos hlt

/-- Under the all-valid hypothesis, the descending inline loop emits one
location per index: the index-0 location comes last with `Inlined = false`,
all earlier ones have `Inlined = true`. -/
theorem inlineLocsDown_decomp (files : List dwFile) (pc : Nat)
    (inlines : List inlineEntry)
    (hv : ∀ f ∈ inlines, ∃ idx, f.callFile = some idx ∧ idx < files.length) :
    ∀ i, i < inlines.length →
      ∃ init last, inlineLocsDown files pc inlines i = init ++ [last] ∧
        last.Inlined = false ∧ ∀ loc ∈ init, loc.Inlined = true := by
  intro i
  induction i with
  | zero =>
    intro h0
    have hget : inlines[0]? = some (inlines.get ⟨0, h0⟩) := by
      rw [List.getElem?_eq_getElem h0]
      rfl
    obtain ⟨idx, hcf, hlt⟩ := hv (inlines.get ⟨0, h0⟩) (inlines.get_mem 0 h0)
    refine ⟨[], inlineLocAt files pc (inlines.get ⟨0, h0⟩) 0 idx hlt, ?_, rfl, by simp⟩
    unfold inlineLocsDown
    simp only [hget, inlineLoc_valid files pc _ 0 idx hcf hlt, List.nil_append]
  | succ i ihs =>
    intro hs
    have hget : inlines[i + 1]? = some (inlines.get ⟨i + 1, hs⟩) := by
      rw [List.getElem?_eq_getElem hs]
      rfl
    obtain ⟨idx, hcf, hlt⟩ :=
      hv (inlines.get ⟨i + 1, hs⟩) (inlines.get_mem (i + 1) hs)
    obtain ⟨init, last, hrec, hlast, hinit⟩ := ihs (by omega)
    refine ⟨inlineLocAt files pc (inlines.get ⟨i + 1, hs⟩) (i + 1) idx hlt :: init,
      last, ?_, hlast, ?_⟩
    · unfold inlineLocsDown
      simp only [hget, inlineLoc_valid files pc _ (i + 1) idx hcf hlt, hrec,
        List.cons_append]
    · intro loc hloc
      rcases List.mem_cons.mp hloc with h | h
      · subst h; rfl
      · exact hinit loc h

/-- C6 (counterexample): a subprogram with one inlined subroutine whose
`AttrCallFile` attribute is missing. The inline loop breaks immediately, so
the returned (non-empty) location list consists of the innermost location
alone, marked `inlined = true`: no entry at all has `inlined = false`. -/
theorem lookupLocations_outermost_counterexample :
    (lookupLocations ⟨[⟨none, some 3, none, "gi", "gs"⟩], "f", "f"⟩ []
        ⟨"a.c", 1, 1⟩ 7).countP (fun l => l.Inlined = false) = 0 ∧
    (lookupLocations ⟨[⟨none, some 3, none, "gi", "gs"⟩], "f", "f"⟩ []
        ⟨"a.c", 1, 1⟩ 7).length = 1 ∧
    ¬ specInlineChainClaim
      (lookupLocations ⟨[⟨none, some 3, none, "gi", "gs"⟩], "f", "f"⟩ []
        ⟨"a.c", 1, 1⟩ 7) := by
  refine ⟨by decide, by decide, ?_⟩
  unfold specInlineChainClaim
  decide

/-- C6 (amended): when every inlined entry of the subprogram carries a
call-file attribute that is a valid index into the file table (so the inline
loop completes), the returned location list is non-empty, exactly one of its
entries has `inlined = false`, and that entry is the last one. When the loop
instead stops early at an invalid entry, no entry has `inlined = false`. -/
theorem lookupLocations_one_outermost (spgm : subprogramInfo) (files : List dwFile)
    (le : lineEntry) (pc : Nat)
    (hv : ∀ f ∈ spgm.Inlines, ∃ idx, f.callFile = some idx ∧ idx < files.length) :
    lookupLocations spgm files le pc ≠ [] ∧
    (lookupLocations spgm files le pc).countP (fun l => l.Inlined = false) = 1 ∧
    (lookupLocations spgm files le pc).getLast?.map location.Inlined = some false := by
  unfold lookupLocations
  by_cases hlen : 0 < spgm.Inlines.length
  · rw [if_pos hlen]
    obtain ⟨init, last, hrec, hlast, hinit⟩ :=
      inlineLocsDown_decomp files pc spgm.Inlines hv (spgm.Inlines.length - 1)
        (by omega)
    rw [hrec]
    refine ⟨by simp, ?_, ?_⟩
    · rw [List.countP_cons_of_neg _ _ (by simp [hlen]), List.countP_append]
      rw [List.countP_eq_zero.mpr (by
        intro a ha
        simp [hinit a ha])]
      simp [hlast]
    · rw [← List.cons_append, List.getLast?_concat]
      simp [hlast]
  · rw [if_neg hlen]
    refine ⟨by simp, ?_, ?_⟩
    · rw [List.countP_singleton]
      simp [Nat.eq_zero_of_not_pos hlen]
    · simp [Nat.eq_zero_of_not_pos hlen]

/-- Witness for C6 (amended): one valid inlined entry produces the two-entry
chain `[inner (inlined), outer (not inlined)]`. -/
theorem lookupLocations_one_outermost_witness :
    lookupLocations ⟨[⟨some 0, some 3, none, "gi", "gs"⟩], "f", "f"⟩ [⟨"a.c"⟩]
        ⟨"b.c", 1, 1⟩ 7 ≠ [] ∧
    (lookupLocations ⟨[⟨some 0, some 3, none, "gi", "gs"⟩], "f", "f"⟩ [⟨"a.c"⟩]
        ⟨"b.c", 1, 1⟩ 7).countP (fun l => l.Inlined = false) = 1 := by
  have h := lookupLocations_one_outermost
    ⟨[⟨some 0, some 3, none, "gi", "gs"⟩], "f", "f"⟩ [⟨"a.c"⟩] ⟨"b.c", 1, 1⟩ 7
    (by
      intro f hf
      rw [List.mem_singleton] at hf
      subst hf
      exact ⟨0, rfl, by decide⟩)
  exact ⟨h.1, h.2.1⟩

/-- A location emitted by the inline loop carries the same value in its
column and line fields. -/
theorem inlineLoc_column_eq_line (files : List dwFile) (pc : Nat) (f : inlineEntry)
    (i : Nat) (loc : location) (h : inlineLoc files pc f i = some loc) :
    loc.Column = loc.Line := by
  cases hcf : f.callFile with
  | none =>
    unfold inlineLoc at h
    simp only [hcf] at h
    exact Option.noConfusion h
  | some idx =>
    by_cases hlt : idx < files.length
    · rw [inlineLoc_valid files pc f i idx hcf hlt] at h
      cases h
      rfl
    · unfold inlineLoc at h
      simp only [hcf] at h
      rw [dif_neg hlt] at h
      exact Option.noConfusion h

/-- Every location produced by the descending inline loop has
`Column = Line`. -/
theorem inlineLocsDown_column_eq_line (files : List dwFile) (pc : Nat)
    (inlines : List inlineEntry) :
    ∀ i, ∀ loc ∈ inlineLocsDown files pc inlines i, loc.Column = loc.Line := by
  intro i
  induction i with
  | zero =>
    intro loc hloc
    unfold inlineLocsDown at hloc
    cases hg : inlines[0]? with
    | none => simp only [hg, List.not_mem_nil] at hloc
    | some f =>
      simp only [hg] at hloc
      cases hl : inlineLoc files pc f 0 with
      | none => simp only [hl, List.not_mem_nil] at hloc
      | some loc0 =>
        simp only [hl, List.mem_singleton] at hloc
        rw [hloc]
        exact inlineLoc_column_eq_line files pc f 0 loc0 hl
  | succ i ihs =>
    intro loc hloc
    unfold inlineLocsDown at hloc
    cases hg : inlines[i + 1]? with
    | none => simp only [hg, List.not_mem_nil] at hloc
    | some f =>
      simp only [hg] at hloc
      cases hl : inlineLoc files pc f (i + 1) with
      | none => simp only [hl, List.not_mem_nil] at hloc
      | some loc0 =>
        simp only [hl, List.mem_cons] at hloc
        rcases hloc with h | h
        · rw [h]; exact inlineLoc_column_eq_line files pc f (i + 1) loc0 hl
        · exact ihs loc h

/-- `inlineLoc` never reads the `callColumn` attribute. -/
theorem inlineLoc_ignores_callColumn (files : List dwFile) (pc : Nat)
    (f : inlineEntry) (x : Option Int) (i : Nat) :
    inlineLoc files pc { f with callColumn := x } i = inlineLoc files pc f i := by
  cases f
  rfl

/-- The descending inline loop never reads the `callColumn` attribute. -/
theorem inlineLocsDown_ignores_callColumn (files : List dwFile) (pc : Nat)
    (inlines : List inlineEntry) (g : inlineEntry → Option Int) :
    ∀ i, inlineLocsDown files pc
        (inlines.map fun f => { f with callColumn := g f }) i
      = inlineLocsDown files pc inlines i := by
  intro i
  induction i with
  | zero =>
    unfold inlineLocsDown
    rw [List.getElem?_map]
    cases inlines[0]? with
    | none => rfl
    | some f =>
      simp only [Option.map_some']
      rw [inlineLoc_ignores_callColumn]
  | succ i ihs =>
    unfold inlineLocsDown
    rw [List.getElem?_map]
    cases inlines[i + 1]? with
    | none => rfl
    | some f =>
      simp only [Option.map_some']
      rw [inlineLoc_ignores_callColumn]
      cases inlineLoc files pc f (i + 1) with
      | none => rfl
      | some loc => rw [ihs]

/-- C10: every entry after the innermost in the list returned by the DWARF
symbolizer's `Lookup` has its column equal to its line (both decoded from
`AttrCallLine`), and the result never depends on the `AttrCallColumn`
attribute of any inlined entry. -/
theorem lookup_column_from_call_line (spgm : subprogramInfo) (files : List dwFile)
    (le : lineEntry) (pc : Nat) :
    (∀ loc ∈ (lookupLocations spgm files le pc).tail, loc.Column = loc.Line) ∧
    ∀ g : inlineEntry → Option Int,
      lookupLocations
        { spgm with Inlines := spgm.Inlines.map fun f => { f with callColumn := g f } }
        files le pc = lookupLocations spgm files le pc := by
  constructor
  · intro loc hloc
    unfold lookupLocations at hloc
    by_cases hlen : 0 < spgm.Inlines.length
    · rw [if_pos hlen] at hloc
      simp only [List.tail_cons] at hloc
      exact inlineLocsDown_column_eq_line files pc spgm.Inlines _ loc hloc
    · rw [if_neg hlen] at hloc
      simp at hloc
  · intro g
    unfold lookupLocations
    simp only [List.length_map]
    rw [inlineLocsDown_ignores_callColumn]

/-- Witness for C10: the single inlined location produced from a concrete
valid entry has equal column and line. -/
theorem lookup_column_from_call_line_witness :
    (location.mk "a.c" 3 3 false 7 "gi" "gs").Column
      = (location.mk "a.c" 3 3 false 7 "gi" "gs").Line := by
  exact (lookup_column_from_call_line ⟨[⟨some 0, some 3, some 9, "gi", "gs"⟩], "f", "f"⟩
    [⟨"a.c"⟩] ⟨"b.c", 1, 1⟩ 7).1 ⟨"a.c", 3, 3, false, 7, "gi", "gs"⟩ (by decide)

/-- Subtracting from a counter leaves its stack unchanged. -/
theorem subtract_stack (o : stackCounter) (v : Int) : (o.subtract v).stack = o.stack :=
  rfl

/-- The inner-loop update of the elision loop leaves stacks unchanged. -/
theorem elideStep_stack (sc o : stackCounter) :
    (if sc.stack.contains o.stack then o.subtract sc.total else o).stack = o.stack := by
  split <;> rfl

/-- Adjusting against an empty sample list is the identity. -/
theorem hostAdjusted_nil (sc : stackCounter) : hostAdjusted [] sc = sc := by
  cases sc
  simp [hostAdjusted]

/-- Adjusting against a list headed by a non-host counter ignores the head. -/
theorem hostAdjusted_cons_nonhost (sc : stackCounter) (rest : List stackCounter)
    (hhost : sc.stack.host = false) (o : stackCounter) :
    hostAdjusted (sc :: rest) o = hostAdjusted rest o := by
  unfold hostAdjusted
  rw [List.filter_cons_of_neg (by simp [hhost])]

/-- When the processed host counter contains no other host's stack, the sum
of host totals charged against a fixed stack is unchanged by the inner-loop
update of the remaining entries. -/
theorem elide_host_sum_invariant (sc : stackCounter) (rest : List stackCounter)
    (hhead : ∀ h ∈ rest, h.stack.host = true → sc.stack.contains h.stack = false)
    (st : stackTrace) :
    (((rest.map fun x => if sc.stack.contains x.stack then x.subtract sc.total else x).filter
        fun h => h.stack.host && h.stack.contains st).map stackCounter.total).sum
      = ((rest.filter fun h => h.stack.host && h.stack.contains st).map
          stackCounter.total).sum := by
  induction rest with
  | nil => rfl
  | cons r rs ih =>
    have hh : ∀ h ∈ rs, h.stack.host = true → sc.stack.contains h.stack = false :=
      fun h hm hhh => hhead h (List.mem_cons_of_mem _ hm) hhh
    have hstack : (if sc.stack.contains r.stack then r.subtract sc.total else r).stack
        = r.stack := elideStep_stack sc r
    by_cases hp : (r.stack.host && r.stack.contains st) = true
    · have hhostr : r.stack.host = true := (Bool.and_eq_true_iff.mp hp).1
      have hfr : (if sc.stack.contains r.stack then r.subtract sc.total else r) = r := by
        rw [hhead r (List.mem_cons_self r rs) hhostr]
        rfl
      rw [List.map_cons, List.filter_cons, List.filter_cons]
      rw [hfr]
      rw [if_pos hp, if_pos hp]
      simp only [List.map_cons, List.sum_cons]
      rw [ih hh]
    · rw [List.map_cons, List.filter_cons, List.filter_cons]
      have hp' : ((if sc.stack.contains r.stack then r.subtract sc.total else r).stack.host
          && (if sc.stack.contains r.stack then r.subtract sc.total else r).stack.contains
            st) = false := by
        rw [hstack]
        exact Bool.not_eq_true _ ▸ (by simpa using hp)
      rw [if_neg (by simp [hp']), if_neg (by simp [hp])]
      exact ih hh

/-- Processing a host counter folds its charge into the per-counter
adjustment: adjusting the updated remainder equals adjusting against the
remainder extended with the host counter itself. -/
theorem hostAdjusted_step (sc : stackCounter) (rest : List stackCounter)
    (hhost : sc.stack.host = true)
    (hhead : ∀ h ∈ rest, h.stack.host = true → sc.stack.contains h.stack = false)
    (o : stackCounter) :
    hostAdjusted (rest.map fun x => if sc.stack.contains x.stack then x.subtract sc.total else x)
        (if sc.stack.contains o.stack then o.subtract sc.total else o)
      = hostAdjusted (sc :: rest) o := by
  unfold hostAdjusted
  have hstack : (if sc.stack.contains o.stack then o.subtract sc.total else o).stack
      = o.stack := elideStep_stack sc o
  rw [hstack, List.filter_cons, elide_host_sum_invariant sc rest hhead o.stack]
  by_cases hc : sc.stack.contains o.stack = true
  · rw [if_pos hc, if_pos (by simp [hhost, hc])]
    simp only [List.map_cons, List.sum_cons, stackCounter.subtract]
    refine congrArg₂ _ rfl ?_
    ring
  · rw [if_neg hc, if_neg (by simp [hhost, hc])]

/-- Core invariant of the elision loop: with enough gas, no host entry
containing another host's stack, the loop returns the visited survivors and
the non-host remainder, every one adjusted by the host totals of the whole
remaining list. -/
theorem elideGo_spec :
    ∀ (gas : Nat) (l acc : List stackCounter), l.length ≤ gas →
      l.Pairwise (fun a b => a.stack.host = true → b.stack.host = true →
        a.stack.contains b.stack = false) →
      elideGo gas acc l = acc.map (hostAdjusted l)
        ++ (l.filter fun sc => sc.stack.host = false).map (hostAdjusted l) := by
  have hnil : ∀ acc : List stackCounter, acc.map (hostAdjusted []) = acc := fun acc =>
    (List.map_congr_left fun sc _ => hostAdjusted_nil sc).trans acc.map_id
  intro gas
  induction gas with
  | zero =>
    intro l acc hlen _
    rw [List.length_eq_zero.mp (Nat.le_zero.mp hlen)]
    simp [elideGo, hnil]
  | succ gas ih =>
    intro l acc hlen hp
    cases l with
    | nil => simp [elideGo, hnil]
    | cons sc rest =>
      rw [List.pairwise_cons] at hp
      obtain ⟨hhead0, hp'⟩ := hp
      by_cases hhost : sc.stack.host = true
      · have hhead : ∀ h ∈ rest, h.stack.host = true →
            sc.stack.contains h.stack = false :=
          fun h hm hh => hhead0 h hm hhost hh
        rw [show elideGo (gas + 1) acc (sc :: rest)
            = elideGo gas
              (acc.map fun other =>
                if sc.stack.contains other.stack then other.subtract sc.total else other)
              (rest.map fun other =>
                if sc.stack.contains other.stack then other.subtract sc.total else other)
          from by rw [elideGo, if_pos hhost]]
        rw [ih _ _ (by simp only [List.length_map]; simpa using hlen) (by
          rw [List.pairwise_map]
          refine hp'.imp ?_
          intro a b hab
          rw [elideStep_stack, elideStep_stack]
          exact hab)]
        rw [show (List.filter (fun x => decide (x.stack.host = false))
            (rest.map fun other =>
              if sc.stack.contains other.stack then other.subtract sc.total else other))
            = (rest.filter fun x => x.stack.host = false).map fun other =>
              if sc.stack.contains other.stack then other.subtract sc.total else other
          from by
            rw [List.filter_map]
            refine congrArg _ (List.filter_congr ?_)
            intro x _
            simp [elideStep_stack]]
        rw [List.map_map, List.map_map]
        have hfun : ∀ X : List stackCounter,
            X.map ((hostAdjusted (rest.map fun x =>
                if sc.stack.contains x.stack then x.subtract sc.total else x)) ∘
              fun other =>
                if sc.stack.contains other.stack then other.subtract sc.total else other)
              = X.map (hostAdjusted (sc :: rest)) := fun X =>
          List.map_congr_left fun o _ => hostAdjusted_step sc rest hhost hhead o
        rw [hfun, hfun]
        rw [List.filter_cons_of_neg (by simp [hhost])]
      · have hhostf : sc.stack.host = false := by
          revert hhost
          cases sc.stack.host <;> simp
        rw [show elideGo (gas + 1) acc (sc :: rest) = elideGo gas (acc ++ [sc]) rest
          from by rw [elideGo, if_neg hhost]]
        rw [ih _ _ (by simpa using hlen) hp']
        rw [List.filter_cons_of_pos (by simp [hhostf])]
        have hmapeq : ∀ X : List stackCounter,
            X.map (hostAdjusted (sc :: rest)) = X.map (hostAdjusted rest) := fun X =>
          List.map_congr_left fun o _ => hostAdjusted_cons_nonhost sc rest hhostf o
        rw [hmapeq, hmapeq]
        simp [List.map_append]

/-- C2 (counterexample): two counters, a host-rooted stack `[100, 200]` with
total 5 and its guest caller's stack `[200]` with total 10. The claim says
the caller's counter is unchanged — its stack does not contain the host
stack — yet the code subtracts, leaving total 5. -/
theorem stopProfileElide_counterexample :
    stopProfileElide [⟨⟨[true, false], [100, 200]⟩, 1, 5⟩, ⟨⟨[false], [200]⟩, 1, 10⟩]
      = [⟨⟨[false], [200]⟩, 1, 5⟩] ∧
    ¬ specElideClaim [⟨⟨[true, false], [100, 200]⟩, 1, 5⟩, ⟨⟨[false], [200]⟩, 1, 10⟩] := by
  refine ⟨by decide, ?_⟩
  unfold specElideClaim
  decide

/-- C2 (amended): when host time is disabled, `StopProfile` removes every
counter whose innermost frame is a host function; provided no removed host
stack contains another host counter's stack, every remaining counter whose
stack the removed host stack fully contains has that host's total subtracted
from it (once per such host), and the remaining counters not contained in
any removed host stack are unchanged. -/
theorem stopProfileElide_host_containment (samples : List stackCounter)
    (hp : samples.Pairwise fun a b => a.stack.host = true → b.stack.host = true →
      a.stack.contains b.stack = false) :
    stopProfileElide samples
      = (samples.filter fun sc => sc.stack.host = false).map (hostAdjusted samples) := by
  unfold stopProfileElide
  rw [elideGo_spec samples.length samples [] (Nat.le_refl _) hp]
  rfl

/-- Witness for C2 (amended) on the counterexample input: the host counter is
removed and the caller's total becomes `10 − 5 = 5`. -/
theorem stopProfileElide_host_containment_witness :
    stopProfileElide [⟨⟨[true, false], [100, 200]⟩, 1, 5⟩, ⟨⟨[false], [200]⟩, 1, 10⟩]
      = [⟨⟨[false], [200]⟩, 1, 5⟩] := by
  rw [stopProfileElide_host_containment _ (by decide)]
  decide

/-- C9 (counterexample): the claim omits the signed 32-bit conversion for
`realloc` and the signed 64-bit reinterpretation for `runtime.mallocgc`. For
`realloc` with second parameter `2^31`, the code charges `int64(int32(2^31))
= −2^31`, not `2^31`; for `runtime.mallocgc` with the 8-byte value `2^63` on
the guest stack, the code charges `int64(2^63) = −2^63`, not `2^63`. -/
theorem memoryCharge_claim_counterexample :
    ¬ specMemoryChargeClaim ∧
    memoryCharge "realloc" [0, 2 ^ 31] 0 [] = some (-(2 ^ 31)) ∧
    memoryCharge "runtime.mallocgc" [] 0
        (List.replicate 8 0 ++ [0, 0, 0, 0, 0, 0, 0, 0x80]) = some (-(2 ^ 63)) := by
  refine ⟨?_, by decide, by decide⟩
  intro h
  have hre := (h [0, 2 ^ 31] 0 []).2.2.1
  exact absurd hre (by decide)

/-- C9 (amended): for each recognized allocator call the charged byte count
is: for `malloc` and `runtime.alloc` the first parameter as a signed 32-bit
integer; for `calloc` the product of the first two parameters as signed
32-bit integers; for `realloc` the second parameter as a signed 32-bit
integer; and for `runtime.mallocgc` the 8-byte little-endian value read from
guest memory at stack-pointer offset `sp + 8` (for a stack pointer below the
`int32` overflow boundary), reinterpreted as a signed 64-bit integer.
Unrecognized function names are not instrumented. -/
theorem memoryCharge_amended (params : List Nat) (global0 : Nat) (mem : List Nat)
    (hsp : global0 + 8 < 2 ^ 31) :
    memoryCharge "malloc" params global0 mem = (params.get? 0).map int32cast ∧
    memoryCharge "calloc" params global0 mem
      = (do
          let a ← params.get? 0
          let b ← params.get? 1
          pure (int32cast a * int32cast b)) ∧
    memoryCharge "realloc" params global0 mem = (params.get? 1).map int32cast ∧
    memoryCharge "runtime.mallocgc" params global0 mem
      = (readu64 mem (global0 + 8)).map int64ofUint64 ∧
    memoryCharge "runtime.alloc" params global0 mem = (params.get? 0).map int32cast ∧
    ∀ name, name ∉ (["malloc", "calloc", "realloc", "runtime.mallocgc",
        "runtime.alloc"] : List String) →
      memoryCharge name params global0 mem = none := by
  refine ⟨rfl, rfl, rfl, ?_, rfl, ?_⟩
  · have hcast : int32cast global0 = (global0 : Int) := by
      unfold int32cast
      rw [Nat.mod_eq_of_lt (by omega)]
      rw [if_pos (by exact_mod_cast (by omega : global0 < 2 ^ 31))]
    have haddr : ((wrapInt32 (int32cast global0 + 8 * (0 + 1))) % (2 ^ 32)).toNat
        = global0 + 8 := by
      rw [hcast]
      unfold wrapInt32
      omega
    show profileGoStack0int32Pre global0 mem = _
    unfold profileGoStack0int32Pre
    simp only []
    rw [haddr]
  · intro name hn
    simp only [List.mem_cons, List.not_mem_nil, or_false, not_or] at hn
    obtain ⟨n1, n2, n3, n4, n5⟩ := hn
    simp [memoryCharge, ProfilerMemoryListen, n1, n2, n3, n4, n5]

/-- Witness for C9 (amended): a `runtime.mallocgc` call with stack pointer 16
and the value 64 stored at guest address 24 charges 64 bytes. -/
theorem memoryCharge_amended_witness :
    memoryCharge "runtime.mallocgc" [] 16
        (List.replicate 24 0 ++ [64, 0, 0, 0, 0, 0, 0, 0]) = some 64 := by
  have h := (memoryCharge_amended [] 16 (List.replicate 24 0 ++ [64, 0, 0, 0, 0, 0, 0, 0])
    (by norm_num)).2.2.2.1
  rw [h]
  decide

end Wzprof
